import Mathlib

/-!
Verification development for the karma.link Solidity ABI codec and type
extractor (packages `abi`, `types`, `ast/extract`).

The Go sources are shallowly embedded:
* Go byte slices become `List Nat` (each element < 256 by construction).
* Go strings become `List Nat` (their UTF-8 bytes); all identifiers that occur
  in the claims are ASCII, so `ascii` maps a Lean string literal to its bytes.
* `math/big.Int` values become `Int`/`Nat` with explicit big-endian byte
  conversions (`toBytesBE`, `fromBytesBE`) mirroring `big.Int.Bytes` /
  `big.Int.SetBytes`.
* fallible Go code returns `Except`/`Option`; a Go `panic` (runtime bounds
  fault or `logger.Panic*`) is a distinguished failure constructor, kept apart
  from a returned `error`.
-/

namespace KarmaLink

/-- UTF-8 bytes of an ASCII string literal (all identifiers used are ASCII). -/
def ascii (s : String) : List Nat := s.data.map Char.toNat

/-- `big.Int.Bytes`: minimal big-endian byte representation (empty for 0). -/
def toBytesBE : Nat → List Nat
  | 0 => []
  | n + 1 => toBytesBE ((n + 1) / 256) ++ [(n + 1) % 256]
decreasing_by exact Nat.div_lt_self (Nat.succ_pos n) (by omega)

/-- `big.Int.SetBytes`: interpret a byte list as a big-endian unsigned value. -/
def fromBytesBE (bs : List Nat) : Nat := bs.foldl (fun a b => a * 256 + b) 0

/-- `big.Int.BitLen` for non-negative values. -/
def bitLen (n : Nat) : Nat := if n = 0 then 0 else Nat.log2 n + 1

/-- Single hex digit character code, lowercase, as produced by `big.Int.Text 16`. -/
def hexDigit (d : Nat) : Nat := if d < 10 then 48 + d else 87 + d

/-- `big.Int.Text 16` for non-negative values: lowercase hex, no leading
zeros. Computed over a fixed 64-digit window, which is exact for every value
of a 32-byte word (`n < 16^64 = 2^256`), the only values the decoder renders. -/
def hexDigitsFixed : Nat → Nat → List Nat
  | 0, _ => []
  | k + 1, n => hexDigitsFixed k (n / 16) ++ [hexDigit (n % 16)]

def hexRender (n : Nat) : List Nat :=
  let ds := (hexDigitsFixed 64 n).dropWhile (fun c => c = 48)
  if ds.isEmpty then [48] else ds

/-- Exactly `k` big-endian base-256 digits of `n` (zero-padded on the left).
Structurally recursive, so it evaluates inside the kernel. -/
def toBytesFixed : Nat → Nat → List Nat
  | 0, _ => []
  | k + 1, n => toBytesFixed k (n / 256) ++ [n % 256]

/-- The range test `len(val.Bytes()) > k` of abi/encode.go, stated
arithmetically; `bytesLenGt_iff` proves it equal to the byte-length
comparison the Go source performs. -/
def bytesLenGt (n k : Nat) : Bool := decide (256 ^ k ≤ n)

/-- abi/abi.go `manualTwosComplement`: invert every byte of the 32-byte
big-endian buffer, then increment bytes at indices 31 down to **1** (the Go
loop condition is `i > 0`, so index 0 is never incremented), stopping at the
first byte that does not wrap to zero. -/
def incFromLSB : List Nat → List Nat
  | [] => []
  | b :: rest => if b + 1 = 256 then 0 :: incFromLSB rest else (b + 1) :: rest

def manualTwosComplement (bs : List Nat) : List Nat :=
  let inverted := bs.map (fun b => 255 - b)
  let rev := inverted.reverse
  (incFromLSB (rev.take (bs.length - 1)) ++ rev.drop (bs.length - 1)).reverse

/-- abi/abi.go `encodeInt256`: the magnitude's bytes left-padded to 32
(`cs := make([]byte, 32-len(bs), 32); cs = append(cs, bs...)`), which for
`|i| < 2^256` is exactly `toBytesFixed 32` (`toBytesFixed_eq_pad`); negative
values go through `manualTwosComplement`. (For `|i| ≥ 2^256` Go panics on a
negative `make` length; no checked call site reaches that.) -/
def encodeInt256 (i : Int) : List Nat :=
  let cs := toBytesFixed 32 i.natAbs
  if 0 ≤ i then cs else manualTwosComplement cs

/-- abi/abi.go `encodeInt64` (specialised to our `Int` embedding). -/
def encodeInt64 (i : Int) : List Nat := encodeInt256 i

/-! ## Type model (types/types.go) and JSON values

JSON values are embedded as an inductive. A JSON number is carried as an
`Int`: the Go encoder rejects any numeric literal containing `e`, `E` or `.`,
so the admissible number literals are exactly the (signed) integers, and the
decoder only ever emits integer literals (`big.Int.Text 10`). A JSON string
is carried as its UTF-8 byte list (Go strings are byte strings). -/

inductive Json where
  | null
  | bool (b : Bool)
  | num (i : Int)
  | str (bytes : List Nat)
  | arr (xs : List Json)
  | obj (fields : List (List Nat × Json))

/-- types/types.go `Type` as a tagged variant. `Event` and `Mapping` carry
their payloads; `Reference` is the unresolved AST-id placeholder
(`types.Reference`, a non-negative AST node id). -/
inductive Ty where
  | elementary (id : List Nat)
  | tuple (ts : List Ty)
  | structT (keys : List (List Nat)) (types : List Ty)
  | array (length : Int) (type : Ty)
  | enum (cs : List (List Nat))
  | named (name : List Nat) (type : Ty)
  | contractAddress (id : List Nat)
  | interfaceAddress (id : List Nat)
  | libraryAddress (id : List Nat)
  | mapping (key value : Ty)
  | event (name : List Nat) (args : List Ty)
  | reference (id : Nat)

/-- types/types.go `DynamicArrayLength`. -/
def dynamicArrayLength : Int := -1

/-- types/types.go `Array.IsDynamic`. -/
def isDynamic (length : Int) : Bool := length = dynamicArrayLength

/-- abi/abi.go `normalizeElementaryTypeName`. -/
def normalizeElementaryTypeName (id : List Nat) : List Nat :=
  if id = ascii "byte" then ascii "bytes1"
  else if id = ascii "int" then ascii "int256"
  else if id = ascii "uint" then ascii "uint256"
  else if id = ascii "address" then ascii "uint160"
  else if id = ascii "fixed" then ascii "fixed128x18"
  else if id = ascii "ufixed" then ascii "ufixed128x18"
  else if id = ascii "string" then ascii "bytes"
  else id

/-- `strings.HasPrefix` on byte lists. -/
def hasPfx : List Nat → List Nat → Bool
  | [], _ => true
  | _ :: _, [] => false
  | p :: ps, s :: ss => p = s && hasPfx ps ss

/-- `strconv.Atoi` restricted to plain digit strings (the only shapes the abi
package feeds it: the digits after `int`/`uint`/`bytes` in a type id). -/
def digitsToNat : List Nat → Option Nat
  | [] => none
  | ds => go ds 0
where
  go : List Nat → Nat → Option Nat
    | [], acc => some acc
    | d :: ds, acc => if 48 ≤ d ∧ d ≤ 57 then go ds (acc * 10 + (d - 48)) else none

/-- Value of one hex digit byte, or none. -/
def hexDigitVal (c : Nat) : Option Nat :=
  if 48 ≤ c ∧ c ≤ 57 then some (c - 48)
  else if 97 ≤ c ∧ c ≤ 102 then some (c - 87)
  else if 65 ≤ c ∧ c ≤ 70 then some (c - 55)
  else none

/-- `big.Int.SetString(s, 0)` after a `0x` prefix: parse the remaining hex
digits (non-empty). Go additionally tolerates `_` digit separators; none of
the inputs of interest contain them. -/
def hexParse : List Nat → Option Nat
  | [] => none
  | ds => go ds 0
where
  go : List Nat → Nat → Option Nat
    | [], acc => some acc
    | d :: ds, acc => match hexDigitVal d with
      | some v => go ds (acc * 16 + v)
      | none => none

/-- unicode/utf8 `Valid` on a byte list (RFC 3629: proper continuation bytes,
no overlong forms, no surrogates, max U+10FFFF). -/
def utf8Valid : List Nat → Bool
  | [] => true
  | b :: rest =>
    if b < 0x80 then utf8Valid rest
    else if 0xC2 ≤ b ∧ b ≤ 0xDF then
      match rest with
      | c1 :: r => (0x80 ≤ c1 && c1 ≤ 0xBF) && utf8Valid r
      | [] => false
    else if 0xE0 ≤ b ∧ b ≤ 0xEF then
      match rest with
      | c1 :: c2 :: r =>
        let lo1 : Nat := if b = 0xE0 then 0xA0 else 0x80
        let hi1 : Nat := if b = 0xED then 0x9F else 0xBF
        (lo1 ≤ c1 && c1 ≤ hi1) && (0x80 ≤ c2 && c2 ≤ 0xBF) && utf8Valid r
      | _ => false
    else if 0xF0 ≤ b ∧ b ≤ 0xF4 then
      match rest with
      | c1 :: c2 :: c3 :: r =>
        let lo1 : Nat := if b = 0xF0 then 0x90 else 0x80
        let hi1 : Nat := if b = 0xF4 then 0x8F else 0xBF
        (lo1 ≤ c1 && c1 ≤ hi1) && (0x80 ≤ c2 && c2 ≤ 0xBF) &&
          (0x80 ≤ c3 && c3 ≤ 0xBF) && utf8Valid r
      | _ => false
    else false

/-- Standard base64 alphabet byte for a 6-bit value (encoding/json marshals a
Go `[]byte` as a base64 string). -/
def b64Char (v : Nat) : Nat :=
  if v < 26 then 65 + v
  else if v < 52 then 97 + (v - 26)
  else if v < 62 then 48 + (v - 52)
  else if v = 62 then 43 else 47

/-- Standard base64 encoding with `=` padding, as `encoding/base64.StdEncoding`. -/
def base64 : List Nat → List Nat
  | b1 :: b2 :: b3 :: rest =>
    let n := b1 * 65536 + b2 * 256 + b3
    b64Char (n / 262144) :: b64Char (n / 4096 % 64) :: b64Char (n / 64 % 64) ::
      b64Char (n % 64) :: base64 rest
  | [b1, b2] =>
    let n := b1 * 1024 + b2 * 4
    [b64Char (n / 4096), b64Char (n / 64 % 64), b64Char (n % 64), 61]
  | [b1] =>
    let n := b1 * 16
    [b64Char (n / 64), b64Char (n % 64), 61, 61]
  | [] => []

mutual

/-- abi/abi.go `width` (`Option` result; `none` models the `logger.Panicf`
reached for `Reference`, `Mapping` and `Event`). -/
def widthT : Ty → Option Nat
  | .named _ t => widthT t
  | .enum _ => some 32
  | .contractAddress _ => some 32
  | .interfaceAddress _ => some 32
  | .libraryAddress _ => some 32
  | .elementary _ => some 32
  | .tuple ts => widthList ts
  | .structT _ ts => widthList ts
  | .array l t =>
    if isDynamic l then some 32
    else (widthT t).map (fun w => w * l.toNat)
  | .mapping _ _ => none
  | .event _ _ => none
  | .reference _ => none

def widthList : List Ty → Option Nat
  | [] => some 0
  | t :: rest => do
    let w ← widthT t
    let ws ← widthList rest
    pure (w + ws)

end

/-! ## Encoder (abi/encode.go)

Encoder errors: one constructor per `fmt.Errorf` site of abi/encode.go (the
`[i]` / `["k"]` breadcrumb wrapping only alters the message text and is not
modelled); `panicE` stands for the `logger.Panic*` sites. -/

inductive EncErr where
  | expectedArrayOfLen
  | expectedString
  | unexpectedEnumCase
  | expectedObject
  | keyMismatch
  | missingKey
  | expectedArray
  | arrayLengthMismatch
  | fixedUnsupported
  | invalidJsonString
  | missingHexPrefix
  | invalidJsonNumber
  | expDecimalInNumber
  | invalidHexNumber
  | valueTooLarge
  | expectedStringOrArray
  | invalidByteArray
  | stringTooLong
  | expectedJsonStringOrNumber
  | panicE
deriving DecidableEq

/-- `json.Unmarshal` into `[]json.RawMessage`: a JSON array yields its
elements; the JSON literal `null` leaves the slice nil (no error); everything
else is a type error. -/
def jsonToArr : Json → Option (List Json)
  | .null => some []
  | .arr xs => some xs
  | _ => none

/-- `json.Unmarshal` into `map[string]json.RawMessage` (`null` is a no-op). -/
def jsonToObj : Json → Option (List (List Nat × Json))
  | .null => some []
  | .obj fs => some fs
  | _ => none

/-- `json.Unmarshal` into `string` (`null` is a no-op leaving `""`). -/
def jsonToStr : Json → Option (List Nat)
  | .null => some []
  | .str s => some s
  | _ => none

def objLookup (fields : List (List Nat × Json)) (k : List Nat) : Option Json :=
  (fields.find? (fun f => f.1 == k)).map (fun f => f.2)

/-- `json.Unmarshal` of a JSON array into `[]byte`: element-wise, every
element must be an integer literal in `0..255`. -/
def bytesFromJson : List Json → Option (List Nat)
  | [] => some []
  | .num i :: rest =>
    if 0 ≤ i ∧ i ≤ 255 then (bytesFromJson rest).map (fun bs => i.toNat :: bs) else none
  | _ :: _ => none

/-- The `types.Elementary` case of abi/encode.go `encode` (this branch never
recurses, so it lives outside the mutual block). The dispatch on the raw JSON
byte (`peekNonWhitespaceByte`) becomes a match on the `Json` constructor;
numeric literals with an exponent or decimal separator (rejected by Go) are
not representable in `Json.num`. -/
def encodeElementary (t : List Nat) (arg : Json) (tailOffset : Nat) (head tail : List Nat) :
    Except EncErr (List Nat × List Nat) :=
  let id := normalizeElementaryTypeName t
  if hasPfx (ascii "fixed") id || hasPfx (ascii "ufixed") id then .error .fixedUnsupported
  else if hasPfx (ascii "int") id || hasPfx (ascii "uint") id then
    let pl : Nat := if id.headD 0 = 117 then 4 else 3
    match digitsToNat (id.drop pl) with
    | none => .error .panicE
    | some bits =>
      if bits % 8 ≠ 0 then .error .panicE
      else
        let parsed : Except EncErr Int :=
          match arg with
          | .str s =>
            if ¬ hasPfx (ascii "0x") s then .error .missingHexPrefix
            else match hexParse (s.drop 2) with
              | none => .error .invalidHexNumber
              | some n => .ok (n : Int)
          | .num i => .ok i
          | _ => .error .expectedJsonStringOrNumber
        match parsed with
        | .error e => .error e
        | .ok val =>
          if bytesLenGt val.natAbs (bits / 8) then .error .valueTooLarge
          else .ok (head ++ encodeInt256 val, tail)
  else if id = ascii "bytes" then
    let payload : Except EncErr (List Nat) :=
      match arg with
      | .arr xs =>
        match bytesFromJson xs with
        | none => .error .invalidByteArray
        | some bs => .ok bs
      | .str s => .ok s
      | _ => .error .expectedStringOrArray
    match payload with
    | .error e => .error e
    | .ok bytes =>
      let padded := bytes ++ List.replicate (32 - bytes.length % 32) 0
      let offset := tailOffset + tail.length
      .ok (head ++ encodeInt256 (offset : Int),
           tail ++ encodeInt256 (bytes.length : Int) ++ padded)
  else if hasPfx (ascii "bytes") id then
    match digitsToNat (id.drop 5) with
    | none => .error .panicE
    | some n =>
      if n > 32 then .error .panicE
      else match arg with
      | .arr xs =>
        match bytesFromJson xs with
        | none => .error .invalidByteArray
        | some bs =>
          if bs.length ≠ n then .error .arrayLengthMismatch
          else .ok (head ++ (bs ++ List.replicate (32 - bs.length) 0), tail)
      | .str s =>
        if s.length > n then .error .stringTooLong
        else .ok (head ++ (s ++ List.replicate (32 - s.length) 0), tail)
      | _ => .error .expectedStringOrArray
  else .error .panicE

mutual

/-- abi/encode.go `encode`: returns the new `(head, tail)` pair. -/
def encodeT (t : Ty) (arg : Json) (tailOffset : Nat) (head tail : List Nat) :
    Except EncErr (List Nat × List Nat) :=
  match t with
  | .named _ inner => encodeT inner arg tailOffset head tail
  | .contractAddress _ => encodeElementary (ascii "address") arg tailOffset head tail
  | .interfaceAddress _ => encodeElementary (ascii "address") arg tailOffset head tail
  | .libraryAddress _ => encodeElementary (ascii "address") arg tailOffset head tail
  | .elementary id => encodeElementary id arg tailOffset head tail
  | .tuple ts =>
    match jsonToArr arg with
    | none => .error .expectedArrayOfLen
    | some temp =>
      if temp.length ≠ ts.length then .error .expectedArrayOfLen
      else match widthList ts with
        | none => .error .panicE
        | some w => encodeSeq ts temp (tailOffset + w) head tail
  | .enum cs =>
    match jsonToStr arg with
    | none => .error .expectedString
    | some s =>
      match cs.findIdx? (fun c => c == s) with
      | none => .error .unexpectedEnumCase
      | some idx => .ok (head ++ encodeInt256 (idx : Int), tail)
  | .structT keys types =>
    match jsonToObj arg with
    | none => .error .expectedObject
    | some fields =>
      if fields.length ≠ keys.length then .error .keyMismatch
      else encodeStructSeq keys types fields tailOffset head tail
  | .array l ty =>
    match jsonToArr arg with
    | none => .error .expectedArray
    | some temp =>
      if isDynamic l then
        let head' := head ++ encodeInt256 ((tailOffset + tail.length : Nat) : Int)
        let tail' := tail ++ encodeInt256 ((temp.length : Nat) : Int)
        match widthT ty with
        | none => .error .panicE
        | some itemWidth =>
          match encodeRep ty temp (itemWidth * temp.length) [] [] with
          | .error e => .error e
          | .ok (subHead, subTail) =>
            if subHead.length ≠ itemWidth * temp.length then .error .panicE
            else .ok (head', tail' ++ subHead ++ subTail)
      else
        if (l : Int) ≠ (temp.length : Int) then .error .arrayLengthMismatch
        else encodeRep ty temp tailOffset head tail
  | .mapping _ _ => .error .panicE
  | .event _ _ => .error .panicE
  | .reference _ => .error .panicE
termination_by (sizeOf t, 0)

/-- The tuple loop of abi/encode.go `encode` (argument lists are checked to
have equal length before the loop; a longer type list is a Go index panic). -/
def encodeSeq (ts : List Ty) (args : List Json) (tailOffset : Nat) (head tail : List Nat) :
    Except EncErr (List Nat × List Nat) :=
  match ts, args with
  | [], _ => .ok (head, tail)
  | t :: ts', a :: args' =>
    match encodeT t a tailOffset head tail with
    | .error e => .error e
    | .ok (h, tl) => encodeSeq ts' args' tailOffset h tl
  | _ :: _, [] => .error .panicE
termination_by (sizeOf ts, 0)

/-- The struct-key loop of abi/encode.go `encode`. -/
def encodeStructSeq (keys : List (List Nat)) (types : List Ty)
    (fields : List (List Nat × Json)) (tailOffset : Nat) (head tail : List Nat) :
    Except EncErr (List Nat × List Nat) :=
  match keys, types with
  | [], _ => .ok (head, tail)
  | k :: ks, t :: ts =>
    match objLookup fields k with
    | none => .error .missingKey
    | some a =>
      match encodeT t a tailOffset head tail with
      | .error e => .error e
      | .ok (h, tl) => encodeStructSeq ks ts fields tailOffset h tl
  | _ :: _, [] => .error .panicE
termination_by (sizeOf types, 0)

/-- The element loop of the `types.Array` cases of abi/encode.go `encode`. -/
def encodeRep (ty : Ty) (args : List Json) (tailOffset : Nat) (head tail : List Nat) :
    Except EncErr (List Nat × List Nat) :=
  match args with
  | [] => .ok (head, tail)
  | a :: rest =>
    match encodeT ty a tailOffset head tail with
    | .error e => .error e
    | .ok (h, tl) => encodeRep ty rest tailOffset h tl
termination_by (sizeOf ty, args.length + 1)

end

/-- abi/encode.go `Encode`. -/
def Encode (t : Ty) (arg : Json) : Except EncErr (List Nat) :=
  (encodeT t arg 0 [] []).map (fun p => p.1 ++ p.2)

/-! ## Decoder (abi/decode.go)

`DErr.err` models a returned `error` value; `DErr.panic` models a Go runtime
panic (slice/index out of range, `make` with negative size) or a
`logger.Panic*` call — i.e. a program abort, not a reported error. Byte
slices are modelled with capacity equal to length. -/

inductive DErr where
  | err
  | panic
deriving DecidableEq

/-- `big.Int.Int64` on a non-negative value: the low 64 bits, as a signed
two's-complement quantity. -/
def toInt64 (n : Nat) : Int :=
  let m := n % 18446744073709551616
  if m < 9223372036854775808 then (m : Int) else (m : Int) - 18446744073709551616

/-- `new(big.Int).SetBytes(code[:32])` (caller must have checked the length). -/
def wordAt (code : List Nat) : Nat := fromBytesBE (code.take 32)

/-- The `types.Elementary` case of abi/decode.go `decode` (never recurses).
Go tests `val.BitLen() <= 32` to choose decimal vs hex rendering, written
here as `val < 2 ^ 32` (the equivalence is `bitLen_le_32_iff`).
`json.Marshal` of a Go string is the JSON string itself; `json.Marshal` of a
`[]byte` is its base64 rendering as a JSON string. -/
def decodeElementary (t : List Nat) (code : List Nat) (offset : Nat) :
    Except DErr (Json × List Nat) :=
  let id := normalizeElementaryTypeName t
  if hasPfx (ascii "fixed") id || hasPfx (ascii "ufixed") id then .error .err
  else if hasPfx (ascii "uint") id then
    if code.length < 32 then .error .panic
    else
      let val := wordAt code
      if val < 2 ^ 32 then .ok (.num (val : Int), code.drop 32)
      else .ok (.str (ascii "0x" ++ hexRender val), code.drop 32)
  else if hasPfx (ascii "int") id then
    if code.length < 32 then .error .panic
    else
      let uval := wordAt code
      if ¬ uval.testBit 255 then
        if uval < 2 ^ 32 then .ok (.num (uval : Int), code.drop 32)
        else .ok (.str (ascii "0x" ++ hexRender uval), code.drop 32)
      else
        let mag := fromBytesBE (manualTwosComplement (code.take 32))
        if 2 ^ 32 ≤ mag then .ok (.str (ascii "0x" ++ hexRender uval), code.drop 32)
        else .ok (.num (-(mag : Int)), code.drop 32)
  else if id = ascii "bytes" then
    if code.length < 32 then .error .panic
    else
      let ref := toInt64 (wordAt code)
      let d := ref - (offset : Int)
      if d < 0 ∨ (code.length : Int) < d then .error .panic
      else
        let tl := code.drop d.toNat
        if tl.length < 32 then .error .panic
        else
          let lng := toInt64 (wordAt tl)
          if lng < 0 ∨ (tl.length : Int) < 32 + lng then .error .panic
          else
            let bs := (tl.drop 32).take lng.toNat
            if utf8Valid bs then .ok (.str bs, code.drop 32)
            else .ok (.str (base64 bs), code.drop 32)
  else if hasPfx (ascii "bytes") id then
    match digitsToNat (id.drop 5) with
    | none => .error .panic
    | some n =>
      if n > 32 then .error .panic
      else if code.length < 32 then .error .panic
      else
        let bs := (code.take 32).take n
        if utf8Valid bs then .ok (.str bs, code.drop 32)
        else .ok (.str (base64 bs), code.drop 32)
  else .error .panic

mutual

/-- abi/decode.go `decode`: returns the parsed value and the remainder of the
buffer. The dynamic-array case builds a synthetic tuple of `lng` copies of
the element type in Go; `decodeRep` is that loop. Go's `json.Marshal` of a
`map[string]` sorts keys; the struct case below keeps declaration order
(presentation of the same object). -/
def decodeT (t : Ty) (code : List Nat) (offset : Nat) : Except DErr (Json × List Nat) :=
  match t with
  | .named _ inner => decodeT inner code offset
  | .contractAddress _ => decodeElementary (ascii "address") code offset
  | .interfaceAddress _ => decodeElementary (ascii "address") code offset
  | .libraryAddress _ => decodeElementary (ascii "address") code offset
  | .elementary id => decodeElementary id code offset
  | .enum cs =>
    if code.length < 32 then .error .panic
    else
      let idx := toInt64 (wordAt code)
      if idx < 0 ∨ (cs.length : Int) ≤ idx then .error .panic
      else match cs[idx.toNat]? with
        | some nm => .ok (.str nm, code.drop 32)
        | none => .error .panic
  | .tuple ts =>
    match decodeSeq ts code offset with
    | .error e => .error e
    | .ok (vals, c) => .ok (.arr vals, c)
  | .structT keys types =>
    match decodeStruct keys types code offset with
    | .error e => .error e
    | .ok (fs, c) => .ok (.obj fs, c)
  | .array l ty =>
    if isDynamic l then
      if code.length < 32 then .error .panic
      else
        let ref := toInt64 (wordAt code)
        let d := ref - (offset : Int)
        if d < 0 ∨ (code.length : Int) < d then .error .panic
        else
          let tl := code.drop d.toNat
          if tl.length < 32 then .error .panic
          else
            let lng := toInt64 (wordAt tl)
            if lng < 0 then .error .panic
            else match decodeRep ty lng.toNat (tl.drop 32) 0 with
              | .error e => .error e
              | .ok (vals, _) => .ok (.arr vals, code.drop 32)
    else if l = 0 then .ok (.arr [], code)
    else match decodeRep ty l.toNat code offset with
      | .error e => .error e
      | .ok (vals, c) => .ok (.arr vals, c)
  | .mapping _ _ => .error .panic
  | .event _ _ => .error .panic
  | .reference _ => .error .panic
termination_by (sizeOf t, 0)

/-- The member loop of the `types.Tuple` / `types.Struct` cases of
abi/decode.go `decode`, advancing the offset by the bytes consumed. -/
def decodeSeq (ts : List Ty) (code : List Nat) (offset : Nat) :
    Except DErr (List Json × List Nat) :=
  match ts with
  | [] => .ok ([], code)
  | t :: rest =>
    match decodeT t code offset with
    | .error e => .error e
    | .ok (v, c) =>
      match decodeSeq rest c (offset + (code.length - c.length)) with
      | .error e => .error e
      | .ok (vs, c') => .ok (v :: vs, c')
termination_by (sizeOf ts, 0)

/-- The key loop of the `types.Struct` case of abi/decode.go `decode` (it
iterates over `Keys` and indexes `Types`; a shorter type list is a Go index
panic). -/
def decodeStruct (keys : List (List Nat)) (types : List Ty) (code : List Nat) (offset : Nat) :
    Except DErr (List (List Nat × Json) × List Nat) :=
  match keys, types with
  | [], _ => .ok ([], code)
  | k :: ks, t :: ts =>
    match decodeT t code offset with
    | .error e => .error e
    | .ok (v, c) =>
      match decodeStruct ks ts c (offset + (code.length - c.length)) with
      | .error e => .error e
      | .ok (fs, c') => .ok ((k, v) :: fs, c')
  | _ :: _, [] => .error .panic
termination_by (sizeOf types, 0)

/-- `n` sequential elements of one type (the synthetic tuple of the
dynamic-array case, and the fixed-size array loop). -/
def decodeRep (ty : Ty) (n : Nat) (code : List Nat) (offset : Nat) :
    Except DErr (List Json × List Nat) :=
  match n with
  | 0 => .ok ([], code)
  | m + 1 =>
    match decodeT ty code offset with
    | .error e => .error e
    | .ok (v, c) =>
      match decodeRep ty m c (offset + (code.length - c.length)) with
      | .error e => .error e
      | .ok (vs, c') => .ok (v :: vs, c')
termination_by (sizeOf ty, n)

end

/-- abi/decode.go `Decode`. -/
def Decode (t : Ty) (code : List Nat) : Except DErr Json :=
  (decodeT t code 0).map (fun p => p.1)

/-! ## Type map, resolve pass and contract API extraction
(types.Map in src/unnamed/part_004, ast/extract/project.go,
ast/extract in src/unnamed/part_006) -/

/-- `types.Map`, as an association list with the Go-map property of unique
keys stated as a hypothesis where needed. -/
abbrev TypeMap := List (Nat × Ty)

def lookupTM (m : TypeMap) (k : Nat) : Option Ty :=
  (m.find? (fun e => e.1 == k)).map (fun e => e.2)

/-- Go map assignment `m[k] = v` for a key already present. -/
def updateTM (m : TypeMap) (k : Nat) (v : Ty) : TypeMap :=
  match m with
  | [] => []
  | e :: rest => if e.1 = k then (k, v) :: rest else e :: updateTM rest k v

/-- `types.Map.Deref`: chases Reference chains transitively. `none` models
the panic on a missing key; the fuel bounds the chase (the Go loop does not
terminate on a cyclic chain). -/
def derefTM (fuel : Nat) (m : TypeMap) (r : Nat) : Option Ty :=
  match fuel with
  | 0 => none
  | fuel + 1 =>
    match lookupTM m r with
    | none => none
    | some (.reference r') => derefTM fuel m r'
    | some t => some t

mutual

/-- `typ.Map(resolve)` of ast/extract/project.go: the `Map` methods of
types/types.go recurse structurally through composite variants and apply the
mapped function only at the leaf variants (Elementary, Enum, the three
address kinds, Reference); composite constructors do not re-apply it at the
root. Fuel decreases at every call; Go has no fuel and diverges on cyclic
reference chains. -/
def mapResolve (fuel : Nat) (m : TypeMap) (t : Ty) : Option Ty :=
  match fuel with
  | 0 => none
  | fuel + 1 =>
    match t with
    | .elementary id => resolveF fuel m (.elementary id)
    | .enum cs => resolveF fuel m (.enum cs)
    | .contractAddress s => resolveF fuel m (.contractAddress s)
    | .interfaceAddress s => resolveF fuel m (.interfaceAddress s)
    | .libraryAddress s => resolveF fuel m (.libraryAddress s)
    | .reference r => resolveF fuel m (.reference r)
    | .tuple ts => (mapResolveList fuel m ts).map .tuple
    | .structT keys ts => (mapResolveList fuel m ts).map (.structT keys)
    | .array l ty => (mapResolve fuel m ty).map (.array l)
    | .named n ty => (mapResolve fuel m ty).map (.named n)
    | .mapping k v =>
      match mapResolve fuel m k, mapResolve fuel m v with
      | some k', some v' => some (.mapping k' v')
      | _, _ => none
    | .event n args => (mapResolveList fuel m args).map (.event n)

def mapResolveList (fuel : Nat) (m : TypeMap) (ts : List Ty) : Option (List Ty) :=
  match fuel with
  | 0 => none
  | fuel + 1 =>
    match ts with
    | [] => some []
    | t :: rest =>
      match mapResolve fuel m t, mapResolveList fuel m rest with
      | some t', some rest' => some (t' :: rest')
      | _, _ => none

/-- The `resolve` closure of ast/extract/project.go `Project`: a Reference is
dereferenced and the result is `Map`ped through `resolve` again; any other
type is returned unchanged. -/
def resolveF (fuel : Nat) (m : TypeMap) (t : Ty) : Option Ty :=
  match fuel with
  | 0 => none
  | fuel + 1 =>
    match t with
    | .reference r =>
      match derefTM (fuel + 1) m r with
      | none => none
      | some t' => mapResolve fuel m t'
    | t' => some t'

end

/-- The resolve pass of ast/extract/project.go `Project` (lines 42–53): every
entry of the type map is replaced by `typ.Map(resolve)`. `Deref` inside
`resolve` reads the partially updated map, matching the in-place Go update
during iteration. -/
def resolvePass (fuel : Nat) : List Nat → TypeMap → Option TypeMap
  | [], m => some m
  | k :: ks, m =>
    match lookupTM m k with
    | none => resolvePass fuel ks m
    | some v =>
      match mapResolve fuel m v with
      | none => none
      | some v' => resolvePass fuel ks (updateTM m k v')

def resolvePassFull (fuel : Nat) (m : TypeMap) : Option TypeMap :=
  resolvePass fuel (m.map Prod.fst) m

mutual

/-- No `types.Reference` variant occurs at any depth. -/
def refFree : Ty → Bool
  | .elementary _ => true
  | .enum _ => true
  | .contractAddress _ => true
  | .interfaceAddress _ => true
  | .libraryAddress _ => true
  | .reference _ => false
  | .tuple ts => refFreeList ts
  | .structT _ ts => refFreeList ts
  | .array _ ty => refFree ty
  | .named _ ty => refFree ty
  | .mapping k v => refFree k && refFree v
  | .event _ args => refFreeList args

def refFreeList : List Ty → Bool
  | [] => true
  | t :: rest => refFree t && refFreeList rest

end

/-- ast.Visibility. -/
inductive Visibility where
  | publicV
  | internalV
  | externalV
  | privateV
deriving DecidableEq

/-- types.Function (claim-relevant fields; StateMutability, NatSpec and the
Definition back-pointer are metadata not inspected by any claim). -/
structure FunctionT where
  name : List Nat
  visibility : Visibility
  inputs : List Ty
  outputs : List Ty

/-- ast.VariableDeclaration as seen by `VariableAPI`: its name and visibility
attributes plus the AST id of its type node (`Children()[0].Header().Id`). -/
structure VarDecl where
  name : List Nat
  visibility : Visibility
  typeId : Nat

/-- ast.FunctionDefinition as seen by `FunctionAPI`: name, visibility, the
constructor flag, and the type-node ids of its two parameter lists. -/
structure FuncDef where
  name : List Nat
  visibility : Visibility
  isConstructor : Bool
  inputIds : List Nat
  outputIds : List Nat

/-- A child node of an ast.ContractDefinition, as dispatched (by Go type
switch) in `ContractAPI`; every node kind other than VariableDeclaration and
FunctionDefinition is skipped. -/
inductive Child where
  | varDecl (v : VarDecl)
  | funcDef (f : FuncDef)
  | other

/-- ast/extract `variableAccessor`: descend Mapping/Array layers collecting
accessor parameters, returning them with the concrete tail type. -/
def variableAccessor : Ty → List Ty → (List Ty × Ty)
  | .mapping k v, prev => variableAccessor v (prev ++ [k])
  | .array _ ty, prev => variableAccessor ty (prev ++ [.elementary (ascii "uint256")])
  | t, prev => (prev, t)

/-- ast/extract `VariableAPI` (src/unnamed/part_006): the synthesised getter
for a top-level contract variable. `none` models the `Deref` panic. -/
def variableAPI (fuel : Nat) (m : TypeMap) (v : VarDecl) : Option FunctionT :=
  match derefTM fuel m v.typeId with
  | none => none
  | some typ =>
    let acc := variableAccessor typ []
    some ⟨v.name, v.visibility, acc.1, [acc.2]⟩

def isRefRoot : Ty → Bool
  | .reference _ => true
  | _ => false

/-- The parameter loops of `FunctionAPI`: `Deref` each type id in order. -/
def derefList (fuel : Nat) (m : TypeMap) : List Nat → Option (List Ty)
  | [] => some []
  | r :: rest =>
    match derefTM fuel m r, derefList fuel m rest with
    | some t, some ts => some (t :: ts)
    | _, _ => none

/-- ast/extract `FunctionAPI`: inputs and outputs are `Deref`ed from the
parameter lists' type ids; a root-level Reference among the inputs is the
`panic("")` assertion of the Go source. -/
def functionAPI (fuel : Nat) (m : TypeMap) (f : FuncDef) : Option FunctionT :=
  match derefList fuel m f.inputIds with
  | none => none
  | some inputs =>
    match derefList fuel m f.outputIds with
    | none => none
    | some outputs =>
      if inputs.any isRefRoot then none
      else some ⟨f.name, f.visibility, inputs, outputs⟩

/-- ast/extract `ContractAPI` (src/unnamed/part_006, lines 29–52): walks the
contract's children; **every** VariableDeclaration child contributes a
synthesised getter (no visibility filter appears in the source), and every
non-constructor FunctionDefinition contributes its function. -/
def contractAPI (fuel : Nat) (m : TypeMap) (children : List Child) : Option (List FunctionT) :=
  match children with
  | [] => some []
  | .varDecl v :: rest => do
    let fn ← variableAPI fuel m v
    let fns ← contractAPI fuel m rest
    pure (fn :: fns)
  | .funcDef f :: rest =>
    if f.isConstructor then contractAPI fuel m rest
    else do
      let fn ← functionAPI fuel m f
      let fns ← contractAPI fuel m rest
      pure (fn :: fns)
  | .other :: rest => contractAPI fuel m rest

/-- ast/extract/project.go lines 109–114: the Named types of the (resolved)
type map whose name starts with `file:ContractName` are registered in the
contract's Types map (under the suffix after the last dot; the registered
values are what matters here). -/
def contractTypes (m : TypeMap) (pfx : List Nat) : List Ty :=
  m.filterMap (fun e => match e.2 with
    | .named nm ty => if hasPfx pfx nm then some (.named nm ty) else none
    | _ => none)

/-! ## Longest common path prefix (ast/extract/project.go lines 127–188)

Paths (Go strings indexed byte-wise) are modelled as `List Char`; all the
path bytes of interest are ASCII. -/

/-- `trimToLastSeparator`: drop trailing characters until the last one is
`/` (or the string is empty). -/
def trimToLastSeparator (s : List Char) : List Char :=
  (s.reverse.dropWhile (fun c => ¬ c = '/')).reverse

/-- `longestCommonPrefix` (returns `""` when either argument is empty; on a
mismatch at index `i` returns `a[:i]`; with no mismatch, the shorter). -/
def longestCommonPrefix : List Char → List Char → List Char
  | x :: xs, y :: ys => if x = y then x :: longestCommonPrefix xs ys else []
  | _, _ => []

/-- `longestPathPrefix` state: `init` and the current prefix `prfx`. -/
structure LPP where
  init : Bool
  prfx : List Char

/-- `longestPathPrefix.Observe`. -/
def observe (lpp : LPP) (path : List Char) : LPP :=
  if lpp.init then
    { init := true, prfx := trimToLastSeparator (longestCommonPrefix path lpp.prfx) }
  else
    { init := true, prfx := trimToLastSeparator path }

def observeAll (paths : List (List Char)) : LPP :=
  paths.foldl observe { init := false, prfx := [] }

/-- `longestPathPrefix.RemovePrefix`: `none` models the panic when the
stored prefix is not a prefix of the path. -/
def removePrfx (lpp : LPP) (path : List Char) : Option (List Char) :=
  if path.take lpp.prfx.length = lpp.prfx then some (path.drop lpp.prfx.length) else none

/-- `longestPathPrefix.PrependPrefix`: note that a leading `/` of the
argument is dropped before concatenation. -/
def prependPrfx (lpp : LPP) (path : List Char) : List Char :=
  match path with
  | '/' :: rest => lpp.prfx ++ rest
  | _ => lpp.prfx ++ path

theorem toBytesBE_length_le (k : Nat) : ∀ n, n < 256 ^ k → (toBytesBE n).length ≤ k := by
  induction k with
  | zero =>
    intro n hn
    have hz : n = 0 := by omega
    subst hz
    simp [toBytesBE]
  | succ k ih =>
    intro n hn
    match n with
    | 0 => simp [toBytesBE]
    | m + 1 =>
      rw [toBytesBE]
      have hdiv : (m + 1) / 256 < 256 ^ k := by
        apply Nat.div_lt_of_lt_mul
        calc m + 1 < 256 ^ (k + 1) := hn
        _ = 256 * 256 ^ k := by ring
      simp only [List.length_append, List.length_singleton]
      have := ih _ hdiv
      omega

theorem toBytesBE_length_gt (k : Nat) : ∀ n, 256 ^ k ≤ n → k < (toBytesBE n).length := by
  induction k with
  | zero =>
    intro n hn
    match n with
    | 0 => omega
    | m + 1 => rw [toBytesBE]; simp
  | succ k ih =>
    intro n hn
    match n with
    | 0 => exfalso; have : 0 < 256 ^ (k + 1) := Nat.pos_pow_of_pos _ (by omega); omega
    | m + 1 =>
      rw [toBytesBE]
      have hdiv : 256 ^ k ≤ (m + 1) / 256 := by
        apply Nat.le_div_iff_mul_le (by omega) |>.2
        calc 256 ^ k * 256 = 256 ^ (k + 1) := by ring
        _ ≤ m + 1 := hn
      simp only [List.length_append, List.length_singleton]
      have := ih _ hdiv
      omega

theorem bitLen_le_32_iff (n : Nat) : bitLen n ≤ 32 ↔ n < 2 ^ 32 := by
  unfold bitLen
  by_cases h : n = 0
  · subst h; simp
  · simp only [h, if_false]
    have := Nat.log2_lt h (k := 32)
    omega

theorem bytesLenGt_iff (n k : Nat) :
    bytesLenGt n k = true ↔ k < (toBytesBE n).length := by
  unfold bytesLenGt
  simp only [decide_eq_true_eq]
  constructor
  · exact toBytesBE_length_gt k n
  · intro hlt
    by_contra hle
    have : n < 256 ^ k := by omega
    have := toBytesBE_length_le k n this
    omega

set_option maxRecDepth 100000 in
/-- C3: the claim states that for every 32-byte big-endian buffer holding
`0 < x < 2^256` the two's-complement helper returns `2^256 − x`, and that
`encodeInt256` emits that pattern for `−x`. The code is wrong: the increment
loop runs `for i := 31; i > 0; i--`, never incrementing byte 0, so the carry
out of byte 1 is lost. At `x = 2^248` (buffer `01 00 … 00`) the helper
returns `fe 00 … 00` = `2^256 − 2^249` instead of `ff 00 … 00` =
`2^256 − 2^248`, and `encodeInt256 (−2^248)` (reachable as
`Encode(int256, −2^248)`) emits that wrong pattern. -/
theorem C3_twosComplement_missing_carry :
    manualTwosComplement (toBytesFixed 32 (2 ^ 248)) = 254 :: List.replicate 31 0 ∧
    fromBytesBE (manualTwosComplement (toBytesFixed 32 (2 ^ 248))) = 2 ^ 256 - 2 ^ 249 ∧
    (2 ^ 256 - 2 ^ 249 : Nat) ≠ 2 ^ 256 - 2 ^ 248 ∧
    encodeInt256 (-(2 ^ 248 : Int)) = 254 :: List.replicate 31 0 ∧
    Encode (.elementary (ascii "int256")) (.num (-(2 ^ 248))) =
      .ok (254 :: List.replicate 31 0) := by
  refine ⟨by decide, by decide, by decide, by decide, ?_⟩
  simp only [Encode, encodeT]
  rfl

/-- C6 counterexample: encoding `Array(uint256, dynamic)` standalone (not
wrapped in a Tuple) starts with `tailOffset = 0`, so the head slot holds the
offset 0, not `0x20` as the claim states. -/
theorem C6_counterexample :
    Encode (.array (-1) (.elementary (ascii "uint256"))) (.arr [.num 1, .num 2, .num 3]) =
      .ok (encodeInt256 0 ++ encodeInt256 3 ++ encodeInt256 1 ++ encodeInt256 2 ++ encodeInt256 3) ∧
    (encodeInt256 0 ++ encodeInt256 3 ++ encodeInt256 1 ++ encodeInt256 2 ++
      encodeInt256 3).take 32 = List.replicate 32 0 ∧
    List.replicate 32 0 ≠ toBytesFixed 32 32 := by
  refine ⟨?_, by decide, by decide⟩
  simp [Encode, encodeT, encodeRep, jsonToArr, isDynamic, dynamicArrayLength, widthT]
  rfl

/-- C6 amended: the standalone encoding emits offset 0 into the head and then
the length-3 tail with the three 32-byte values; the `0x20` head offset of
the spec's scenario arises when the array is a member of an enclosing Tuple
(whose width 32 becomes the tail offset). -/
theorem C6_amended_layout :
    Encode (.array (-1) (.elementary (ascii "uint256"))) (.arr [.num 1, .num 2, .num 3]) =
      .ok (encodeInt256 0 ++ encodeInt256 3 ++ encodeInt256 1 ++ encodeInt256 2 ++ encodeInt256 3) ∧
    Encode (.tuple [.array (-1) (.elementary (ascii "uint256"))])
        (.arr [.arr [.num 1, .num 2, .num 3]]) =
      .ok (encodeInt256 32 ++ encodeInt256 3 ++ encodeInt256 1 ++ encodeInt256 2 ++ encodeInt256 3) := by
  constructor
  · simp [Encode, encodeT, encodeRep, jsonToArr, isDynamic, dynamicArrayLength, widthT]
    rfl
  · simp [Encode, encodeT, encodeRep, encodeSeq, jsonToArr, isDynamic, dynamicArrayLength,
      widthT, widthList]
    rfl

/-- C7: the claim (and the doc comments of `ContractAPI`/`VariableAPI`, and
Solidity itself) say a getter is synthesised only for public/external
top-level variables. The code has no visibility filter: a contract whose only
child is a **private** variable declaration still yields that variable's
getter in the extracted API. -/
theorem C7_private_variable_getter :
    contractAPI 5 [(1, .elementary (ascii "uint256"))] [.varDecl ⟨ascii "x", .privateV, 1⟩] =
      some [⟨ascii "x", .privateV, [], [.elementary (ascii "uint256")]⟩] ∧
    contractAPI 5 [(1, .elementary (ascii "uint256"))] [.varDecl ⟨ascii "x", .privateV, 1⟩] ≠
      some [] := by
  refine ⟨rfl, fun h => ?_⟩
  have h1 : (some [(⟨ascii "x", .privateV, [], [.elementary (ascii "uint256")]⟩ : FunctionT)] :
      Option (List FunctionT)) = some [] := h
  exact List.noConfusion (Option.some.inj h1)

/-- C10 counterexample: `json.Unmarshal` of the JSON literal `null` into a Go
slice succeeds leaving the slice empty, so `Encode(Array(0,E), null)` also
succeeds — the claim's "exactly when v is the empty JSON array" is false. -/
theorem C10_counterexample :
    Encode (.array 0 (.elementary (ascii "uint256"))) Json.null = .ok [] ∧
    Json.null ≠ Json.arr [] := by
  refine ⟨?_, fun h => Json.noConfusion h⟩
  simp [Encode, encodeT, jsonToArr, isDynamic, dynamicArrayLength, encodeRep, Except.map]

/-- C5 counterexample: decoding an Enum from an empty buffer hits the
unchecked `code[:32]` slice — a Go runtime panic (program abort), not a
returned error as the claim states. -/
theorem C5_counterexample :
    Decode (.enum [ascii "a"]) [] = .error .panic ∧ DErr.panic ≠ DErr.err := by
  refine ⟨?_, by decide⟩
  simp [Decode, decodeT, Except.map]

/-- C2 counterexample: the encoder's range check only compares the byte
length of the **unsigned magnitude** with `M/8`. `int8` therefore accepts
128 (outside `[−128, 127]`), and `uint8` accepts −1 (outside `[0, 255]`,
emitting the two's-complement word `ff…ff`); neither returns the
value-out-of-range error the claim requires. -/
theorem C2_counterexample :
    Encode (.elementary (ascii "int8")) (.num 128) = .ok (toBytesFixed 32 128) ∧
    ¬ ((128 : Int) ≤ 2 ^ (8 - 1) - 1) ∧
    Encode (.elementary (ascii "uint8")) (.num (-1)) = .ok (List.replicate 32 255) ∧
    ¬ ((0 : Int) ≤ -1) := by
  refine ⟨?_, by decide, ?_, by decide⟩
  · simp only [Encode, encodeT]
    rfl
  · simp only [Encode, encodeT]
    rfl

/-- C4 counterexample: at payload length L = 0 (already 32-byte aligned) the
code appends `32 − 0 % 32 = 32` zero padding bytes, so the whole encoding of
`bytes`/`[]` is 96 bytes; the claim's `(32 − L mod 32) mod 32 = 0` padding
would give 64. -/
theorem C4_counterexample :
    Encode (.elementary (ascii "bytes")) (.arr []) = .ok (List.replicate 96 0) ∧
    (List.replicate 96 0 : List Nat).length ≠ 32 + (32 + 0 + (32 - 0 % 32) % 32) := by
  refine ⟨?_, by decide⟩
  simp only [Encode, encodeT]
  rfl

/-- C4 amended: the bytes appended to the tail are exactly the `uint256`
length word, the payload, and then `32 − (L mod 32)` zero bytes — i.e. a
full 32-byte block of zeros when L is already a multiple of 32 (the Go
expression `make([]byte, 32-len%32, …)` is never zero-length). Stated over
the whole standalone encoding (head = offset word 0, then the tail), for a
JSON-string payload and for a byte-array payload. -/
theorem C4_padding_rule (s : List Nat) (xs : List Json) (bs : List Nat)
    (hb : bytesFromJson xs = some bs) :
    Encode (.elementary (ascii "bytes")) (.str s) =
      .ok (encodeInt256 0 ++ (encodeInt256 (s.length : Int) ++
        (s ++ List.replicate (32 - s.length % 32) 0))) ∧
    Encode (.elementary (ascii "bytes")) (.arr xs) =
      .ok (encodeInt256 0 ++ (encodeInt256 (bs.length : Int) ++
        (bs ++ List.replicate (32 - bs.length % 32) 0))) := by
  constructor
  · simp only [Encode, encodeT]
    simp +decide [encodeElementary, Except.map]
  · simp only [Encode, encodeT]
    simp +decide [encodeElementary, hb, Except.map]

set_option maxHeartbeats 1000000 in
/-- Witness for `C4_padding_rule` at the payload `[1,2,3]` (L = 3, so 29
padding bytes) given both as a string and as a byte array. -/
theorem C4_padding_rule_witness :
    Encode (.elementary (ascii "bytes")) (.str [1, 2, 3]) =
      .ok (encodeInt256 0 ++ (encodeInt256 (([1, 2, 3] : List Nat).length : Int) ++
        ([1, 2, 3] ++ List.replicate (32 - ([1, 2, 3] : List Nat).length % 32) 0))) ∧
    Encode (.elementary (ascii "bytes")) (.arr [.num 1, .num 2, .num 3]) =
      .ok (encodeInt256 0 ++ (encodeInt256 (([1, 2, 3] : List Nat).length : Int) ++
        ([1, 2, 3] ++ List.replicate (32 - ([1, 2, 3] : List Nat).length % 32) 0))) :=
  C4_padding_rule [1, 2, 3] [.num 1, .num 2, .num 3] [1, 2, 3] (by decide)

/-- C5 amended: a buffer shorter than a head slot, an enum word whose
truncated-to-int64 index is out of range, and a stored dynamic-tail offset
pointing before the current region or past the end of the buffer all cause a
Go runtime **panic** (program abort) in `decode` — `DErr.panic`, distinct
from a returned error. Go's bounds checks mean no memory is corrupted, but
the conditions are not reported as errors as the claim states. -/
theorem C5_decode_panics (cs : List (List Nat)) (ty : Ty) (code : List Nat) (off : Nat) :
    (code.length < 32 → decodeT (.enum cs) code off = .error .panic) ∧
    (32 ≤ code.length →
      (toInt64 (wordAt code) < 0 ∨ (cs.length : Int) ≤ toInt64 (wordAt code)) →
      decodeT (.enum cs) code off = .error .panic) ∧
    (32 ≤ code.length →
      (toInt64 (wordAt code) - (off : Int) < 0 ∨
        (code.length : Int) < toInt64 (wordAt code) - (off : Int)) →
      decodeT (.array (-1) ty) code off = .error .panic) := by
  refine ⟨fun h => ?_, fun hlen hbad => ?_, fun hlen hbad => ?_⟩
  · simp [decodeT, h]
  · simp [decodeT, show ¬ code.length < 32 by omega, hbad]
  · simp [decodeT, isDynamic, dynamicArrayLength, show ¬ code.length < 32 by omega, hbad]
    intros
    exfalso
    rcases hbad with hb1 | hb2
    · omega
    · omega

/-- Witness for `C5_decode_panics`: the three panic conditions at concrete
buffers (empty buffer; enum word 5 against a 1-case enum; dynamic-array
offset word 200 against a 32-byte buffer). -/
theorem C5_decode_panics_witness :
    decodeT (.enum [ascii "a"]) [] 0 = .error .panic ∧
    decodeT (.enum [ascii "a"]) (toBytesFixed 32 5) 0 = .error .panic ∧
    decodeT (.array (-1) (.elementary (ascii "uint256"))) (toBytesFixed 32 200) 0 =
      .error .panic :=
  ⟨(C5_decode_panics [ascii "a"] (.elementary (ascii "uint256")) [] 0).1 (by decide),
   (C5_decode_panics [ascii "a"] (.elementary (ascii "uint256")) (toBytesFixed 32 5) 0).2.1
     (by decide) (by decide),
   (C5_decode_panics [ascii "a"] (.elementary (ascii "uint256")) (toBytesFixed 32 200) 0).2.2
     (by decide) (by decide)⟩

/-- C10 amended: `Array(0, E)` is a static type distinct from the dynamic
sentinel −1: its width is 0, decoding returns `[]` for **every** buffer
consuming nothing, and encoding succeeds appending nothing — but exactly when
the argument is the empty JSON array **or JSON null** (Go's `json.Unmarshal`
maps `null` to an empty slice without error). -/
theorem C10_zero_length_array (E : Ty) (v : Json) (b : List Nat) (off : Nat) (w : Nat) :
    (widthT E = some w → widthT (.array 0 E) = some 0) ∧
    ((∃ bs, Encode (.array 0 E) v = .ok bs) ↔ (v = .arr [] ∨ v = .null)) ∧
    Encode (.array 0 E) (.arr []) = .ok [] ∧
    decodeT (.array 0 E) b off = .ok (.arr [], b) := by
  refine ⟨fun hw => ?_, ⟨?_, ?_⟩, ?_, ?_⟩
  · simp [widthT, isDynamic, dynamicArrayLength, hw]
  · rintro ⟨bs, hbs⟩
    cases v with
    | null => exact Or.inr rfl
    | arr xs =>
      cases xs with
      | nil => exact Or.inl rfl
      | cons x rest =>
        exfalso
        have hne : ¬ ((0 : Int) = (rest.length : Int) + 1) := by omega
        simp [Encode, encodeT, jsonToArr, isDynamic, dynamicArrayLength, hne,
          Except.map] at hbs
    | bool bb => simp [Encode, encodeT, jsonToArr, Except.map] at hbs
    | num i => simp [Encode, encodeT, jsonToArr, Except.map] at hbs
    | str st => simp [Encode, encodeT, jsonToArr, Except.map] at hbs
    | obj fs => simp [Encode, encodeT, jsonToArr, Except.map] at hbs
  · rintro (rfl | rfl)
    · exact ⟨[], by simp [Encode, encodeT, jsonToArr, isDynamic, dynamicArrayLength,
        encodeRep, Except.map]⟩
    · exact ⟨[], by simp [Encode, encodeT, jsonToArr, isDynamic, dynamicArrayLength,
        encodeRep, Except.map]⟩
  · simp [Encode, encodeT, jsonToArr, isDynamic, dynamicArrayLength, encodeRep, Except.map]
  · simp [decodeT, isDynamic, dynamicArrayLength]

/-- Witness for `C10_zero_length_array` at `E = uint256`, `v = []`, an
arbitrary 2-byte buffer and `w = 32`. -/
theorem C10_zero_length_array_witness :
    (widthT (.elementary (ascii "uint256")) = some 32 →
      widthT (.array 0 (.elementary (ascii "uint256"))) = some 0) ∧
    ((∃ bs, Encode (.array 0 (.elementary (ascii "uint256"))) (.arr []) = .ok bs) ↔
      ((Json.arr [] = .arr [] ∨ (Json.arr []) = .null))) ∧
    Encode (.array 0 (.elementary (ascii "uint256"))) (.arr []) = .ok [] ∧
    decodeT (.array 0 (.elementary (ascii "uint256"))) [7, 9] 4 = .ok (.arr [], [7, 9]) :=
  C10_zero_length_array (.elementary (ascii "uint256")) (.arr []) [7, 9] 4 32

theorem hasPfx_append_self (p t : List Nat) : hasPfx p (p ++ t) = true := by
  induction p with
  | nil => rfl
  | cons a p ih => simp [hasPfx, ih]

set_option maxHeartbeats 2000000 in
/-- C2 amended: for `intM` and `uintM` alike, the encoder's only range test
compares the byte length of the **unsigned magnitude** against `M/8`: a
numeric argument `v` is accepted iff `|v| ≤ 2^M − 1`, regardless of sign and
of signedness (so `intM` also accepts `(2^(M−1)..2^M−1]` and `uintM` accepts
negative values), and a well-formed `0x…` hex string of value `n` is
accepted iff `n ≤ 2^M − 1`. Out-of-range values yield the value-too-large
error. -/
theorem C2_magnitude_only_check (id t : List Nat) (M : Nat) (i : Int)
    (s : List Nat) (n : Nat)
    (hform : normalizeElementaryTypeName id = ascii "int" ++ t ∨
             normalizeElementaryTypeName id = ascii "uint" ++ t)
    (hbits : digitsToNat t = some M)
    (hM8 : M % 8 = 0)
    (hs : hasPfx (ascii "0x") s = true)
    (hn : hexParse (s.drop 2) = some n) :
    ((∃ bs, Encode (.elementary id) (.num i) = .ok bs) ↔ i.natAbs < 2 ^ M) ∧
    (Encode (.elementary id) (.num i) = .error .valueTooLarge ↔ 2 ^ M ≤ i.natAbs) ∧
    ((∃ bs, Encode (.elementary id) (.str s) = .ok bs) ↔ n < 2 ^ M) := by
  have hpow : (256 : Nat) ^ (M / 8) = 2 ^ M := by
    rw [show (256 : Nat) = 2 ^ 8 from rfl, ← pow_mul]
    congr 1
    omega
  have key : ∀ arg : Json, encodeElementary id arg 0 [] [] =
      (match (match arg with
              | .str s' =>
                if ¬ hasPfx (ascii "0x") s' then Except.error EncErr.missingHexPrefix
                else match hexParse (s'.drop 2) with
                  | none => Except.error EncErr.invalidHexNumber
                  | some m => Except.ok (m : Int)
              | .num j => Except.ok j
              | _ => Except.error EncErr.expectedJsonStringOrNumber : Except EncErr Int) with
       | .error e => Except.error e
       | .ok val =>
         if bytesLenGt val.natAbs (M / 8) then Except.error EncErr.valueTooLarge
         else Except.ok (([] : List Nat) ++ encodeInt256 val, ([] : List Nat))) := by
    intro arg
    rcases hform with ht | ht
    · unfold encodeElementary
      rw [ht]
      have h1 : hasPfx (ascii "fixed") (ascii "int" ++ t) = false := rfl
      have h2 : hasPfx (ascii "ufixed") (ascii "int" ++ t) = false := rfl
      have h3 : hasPfx (ascii "int") (ascii "int" ++ t) = true := hasPfx_append_self _ _
      have h4 : (ascii "int" ++ t).headD 0 = 105 := rfl
      have h5 : (ascii "int" ++ t).drop 3 = t := rfl
      have h6 : (if (105 : Nat) = 117 then 4 else 3) = 3 := by norm_num
      simp only [h1, h2, h3, h4, h6, h5, Bool.false_or, Bool.or_false, Bool.true_or,
        Bool.false_eq_true, if_false, if_true, hbits, hM8]
      simp [hM8]
    · unfold encodeElementary
      rw [ht]
      have h1 : hasPfx (ascii "fixed") (ascii "uint" ++ t) = false := rfl
      have h2 : hasPfx (ascii "ufixed") (ascii "uint" ++ t) = false := rfl
      have h3 : hasPfx (ascii "uint") (ascii "uint" ++ t) = true := hasPfx_append_self _ _
      have h4 : (ascii "uint" ++ t).headD 0 = 117 := rfl
      have h5 : (ascii "uint" ++ t).drop 4 = t := rfl
      have h6 : (if (117 : Nat) = 117 then 4 else 3) = 4 := by norm_num
      have h7 : hasPfx (ascii "int") (ascii "uint" ++ t) = false := rfl
      simp only [h1, h2, h3, h4, h6, h5, h7, Bool.false_or, Bool.or_false, Bool.true_or,
        Bool.false_eq_true, if_false, if_true, hbits, hM8]
      simp [hM8]
  have hEnc : ∀ arg : Json, Encode (.elementary id) arg =
      Except.map (fun p : List Nat × List Nat => p.1 ++ p.2)
        (encodeElementary id arg 0 [] []) := by
    intro arg
    simp only [Encode, encodeT]
  refine ⟨?_, ?_, ?_⟩
  · rw [hEnc, key]
    by_cases hr : 256 ^ (M / 8) ≤ i.natAbs
    · have hb : bytesLenGt i.natAbs (M / 8) = true := by
        simpa [bytesLenGt] using hr
      have hge : 2 ^ M ≤ i.natAbs := by rwa [hpow] at hr
      simp [hb, Except.map]
      omega
    · have hb : bytesLenGt i.natAbs (M / 8) = false := by
        simpa [bytesLenGt] using hr
      have hlt : i.natAbs < 2 ^ M := by rw [hpow] at hr; omega
      simp [hb, Except.map, hlt]
  · rw [hEnc, key]
    by_cases hr : 256 ^ (M / 8) ≤ i.natAbs
    · have hb : bytesLenGt i.natAbs (M / 8) = true := by
        simpa [bytesLenGt] using hr
      have hge : 2 ^ M ≤ i.natAbs := by rwa [hpow] at hr
      simp [hb, Except.map, hge]
    · have hb : bytesLenGt i.natAbs (M / 8) = false := by
        simpa [bytesLenGt] using hr
      have hlt : i.natAbs < 2 ^ M := by rw [hpow] at hr; omega
      simp [hb, Except.map]
      omega
  · rw [hEnc, key]
    have habs : ((n : Int)).natAbs = n := rfl
    simp only [hs, Bool.not_true, Bool.false_eq_true, if_false, hn, habs]
    by_cases hr : 256 ^ (M / 8) ≤ n
    · have hb : bytesLenGt n (M / 8) = true := by
        simpa [bytesLenGt] using hr
      have hge : 2 ^ M ≤ n := by rwa [hpow] at hr
      simp [habs, hb, Except.map]
      omega
    · have hb : bytesLenGt n (M / 8) = false := by
        simpa [bytesLenGt] using hr
      have hlt : n < 2 ^ M := by rw [hpow] at hr; omega
      simp [habs, hb, Except.map, hlt]

/-- Witness for `C2_magnitude_only_check` at `int8`: 200 (accepted although
outside `[−128,127]`: its magnitude fits 8 bits), and the hex string `0xff`
(value 255, accepted). -/
theorem C2_magnitude_only_check_witness :
    ((∃ bs, Encode (.elementary (ascii "int8")) (.num 200) = .ok bs) ↔
      (200 : Int).natAbs < 2 ^ 8) ∧
    (Encode (.elementary (ascii "int8")) (.num 200) = .error .valueTooLarge ↔
      2 ^ 8 ≤ (200 : Int).natAbs) ∧
    ((∃ bs, Encode (.elementary (ascii "int8")) (.str (ascii "0xff")) = .ok bs) ↔
      255 < 2 ^ 8) :=
  C2_magnitude_only_check (ascii "int8") (ascii "8") 8 200 (ascii "0xff") 255
    (Or.inl (by decide)) (by decide) (by decide) (by decide) (by decide)

theorem lcp_pfx_left (a : List Char) : ∀ b, ∃ u, longestCommonPrefix a b ++ u = a := by
  induction a with
  | nil =>
    intro b
    cases b <;> exact ⟨[], rfl⟩
  | cons x xs ih =>
    intro b
    cases b with
    | nil => exact ⟨x :: xs, rfl⟩
    | cons y ys =>
      by_cases hxy : x = y
      · obtain ⟨u, hu⟩ := ih ys
        exact ⟨u, by simp [longestCommonPrefix, hxy, hu]⟩
      · exact ⟨x :: xs, by simp [longestCommonPrefix, hxy]⟩

theorem lcp_pfx_right (a : List Char) : ∀ b, ∃ u, longestCommonPrefix a b ++ u = b := by
  induction a with
  | nil =>
    intro b
    cases b with
    | nil => exact ⟨[], rfl⟩
    | cons y ys => exact ⟨y :: ys, rfl⟩
  | cons x xs ih =>
    intro b
    cases b with
    | nil => exact ⟨[], rfl⟩
    | cons y ys =>
      by_cases hxy : x = y
      · obtain ⟨u, hu⟩ := ih ys
        subst hxy
        exact ⟨u, by simp [longestCommonPrefix, hu]⟩
      · exact ⟨y :: ys, by simp [longestCommonPrefix, hxy]⟩

theorem dropWhile_sfx (q : Char → Bool) (l : List Char) : ∃ u, u ++ l.dropWhile q = l := by
  induction l with
  | nil => exact ⟨[], rfl⟩
  | cons x xs ih =>
    by_cases hx : q x
    · obtain ⟨u, hu⟩ := ih
      exact ⟨x :: u, by simp [List.dropWhile, hx, hu]⟩
    · exact ⟨[], by simp [List.dropWhile, hx]⟩

theorem trim_pfx (s : List Char) : ∃ u, trimToLastSeparator s ++ u = s := by
  obtain ⟨u, hu⟩ := dropWhile_sfx (fun c => ¬ c = '/') s.reverse
  refine ⟨u.reverse, ?_⟩
  have h2 := congrArg List.reverse hu
  rw [List.reverse_append, List.reverse_reverse] at h2
  exact h2

theorem observe_init (lpp : LPP) (p : List Char) : (observe lpp p).init = true := by
  unfold observe
  split <;> rfl

theorem observe_pfx (lpp : LPP) (p : List Char) : ∃ u, (observe lpp p).prfx ++ u = p := by
  unfold observe
  by_cases h : lpp.init
  · simp only [h, if_true]
    obtain ⟨u1, hu1⟩ := trim_pfx (longestCommonPrefix p lpp.prfx)
    obtain ⟨u2, hu2⟩ := lcp_pfx_left p lpp.prfx
    exact ⟨u1 ++ u2, by rw [← List.append_assoc, hu1, hu2]⟩
  · simp only [h, if_false]
    exact trim_pfx p

theorem foldl_observe_shrink (paths : List (List Char)) :
    ∀ lpp : LPP, lpp.init = true →
      ∃ u, (paths.foldl observe lpp).prfx ++ u = lpp.prfx := by
  induction paths with
  | nil =>
    intro lpp _
    exact ⟨[], by simp⟩
  | cons q rest ih =>
    intro lpp h
    have hstep : ∃ v, (observe lpp q).prfx ++ v = lpp.prfx := by
      unfold observe
      simp only [h, if_true]
      obtain ⟨u1, hu1⟩ := trim_pfx (longestCommonPrefix q lpp.prfx)
      obtain ⟨u2, hu2⟩ := lcp_pfx_right q lpp.prfx
      exact ⟨u1 ++ u2, by rw [← List.append_assoc, hu1, hu2]⟩
    obtain ⟨v, hv⟩ := hstep
    obtain ⟨w, hw⟩ := ih (observe lpp q) (observe_init lpp q)
    refine ⟨w ++ v, ?_⟩
    have hfold : List.foldl observe lpp (q :: rest) = List.foldl observe (observe lpp q) rest := rfl
    rw [hfold, ← List.append_assoc, hw, hv]

theorem mem_observeAll_pfx (paths : List (List Char)) :
    ∀ (lpp : LPP) (p : List Char), p ∈ paths →
      ∃ u, (paths.foldl observe lpp).prfx ++ u = p := by
  induction paths with
  | nil =>
    intro lpp p hp
    cases hp
  | cons q rest ih =>
    intro lpp p hp
    rcases List.mem_cons.mp hp with rfl | hmem
    · obtain ⟨u1, hu1⟩ := foldl_observe_shrink rest (observe lpp p) (observe_init lpp p)
      obtain ⟨u2, hu2⟩ := observe_pfx lpp p
      refine ⟨u1 ++ u2, ?_⟩
      have hfold : List.foldl observe lpp (p :: rest) = List.foldl observe (observe lpp p) rest := rfl
      rw [hfold, ← List.append_assoc, hu1, hu2]
    · exact ih (observe lpp q) p hmem

/-- C9 counterexample: with source list `["/a.sol", "b.sol"]` the computed
common prefix is empty, so `RemovePrefix("/a.sol") = "/a.sol"`; but
`PrependPrefix` drops a leading `/` of its argument, returning `"a.sol"` —
the round trip is not the identity on the observed path `/a.sol`. -/
theorem C9_counterexample :
    removePrfx (observeAll ["/a.sol".data, "b.sol".data]) "/a.sol".data =
      some "/a.sol".data ∧
    prependPrfx (observeAll ["/a.sol".data, "b.sol".data]) "/a.sol".data = "a.sol".data ∧
    "a.sol".data ≠ "/a.sol".data := by
  refine ⟨by decide, by decide, by decide⟩

/-- C9 amended: for every observed path `p`, `RemovePrefix(p)` succeeds (the
tracked prefix is a prefix of every observed path), and re-attaching gives
back `p` **provided the stripped remainder does not itself start with `/`**
(`PrependPrefix` deletes such a leading slash, see `C9_counterexample`). -/
theorem C9_prefix_roundtrip (paths : List (List Char)) (p : List Char) (hp : p ∈ paths) :
    ∃ r, removePrfx (observeAll paths) p = some r ∧
      (r.head? ≠ some '/' → prependPrfx (observeAll paths) r = p) := by
  obtain ⟨u, hu⟩ := mem_observeAll_pfx paths { init := false, prfx := [] } p hp
  have htake : p.take (observeAll paths).prfx.length = (observeAll paths).prfx := by
    rw [← hu]
    exact List.take_left _ _
  have hdrop : p.drop (observeAll paths).prfx.length = u := by
    rw [← hu]
    exact List.drop_left _ _
  refine ⟨u, ?_, ?_⟩
  · unfold removePrfx
    rw [if_pos htake, hdrop]
  · intro hhead
    cases u with
    | nil =>
      show prependPrfx (observeAll paths) [] = p
      unfold prependPrfx
      simpa using hu
    | cons c rest =>
      have hc : ¬ (c = '/') := by
        intro hceq
        exact hhead (by rw [hceq]; rfl)
      show prependPrfx (observeAll paths) (c :: rest) = p
      unfold prependPrfx
      split
      · next rest2 heq =>
        exact absurd (List.head_eq_of_cons_eq heq) hc
      · exact hu

/-- Witness for `C9_prefix_roundtrip` on the spec's own example
(`a/x/b.sol`, `a/c.sol`; prefix `a/`). -/
theorem C9_prefix_roundtrip_witness :
    ∃ r, removePrfx (observeAll ["a/x/b.sol".data, "a/c.sol".data]) "a/x/b.sol".data =
        some r ∧
      (r.head? ≠ some '/' →
        prependPrfx (observeAll ["a/x/b.sol".data, "a/c.sol".data]) r = "a/x/b.sol".data) :=
  C9_prefix_roundtrip ["a/x/b.sol".data, "a/c.sol".data] "a/x/b.sol".data (by simp)

theorem refFreeList_iff (ts : List Ty) :
    refFreeList ts = true ↔ ∀ t ∈ ts, refFree t = true := by
  induction ts with
  | nil => simp [refFreeList]
  | cons t rest ih => simp [refFreeList, ih]

theorem resolve_refFree (fuel : Nat) :
    (∀ m t t', mapResolve fuel m t = some t' → refFree t' = true) ∧
    (∀ m ts ts', mapResolveList fuel m ts = some ts' → refFreeList ts' = true) ∧
    (∀ m t t', resolveF fuel m t = some t' →
      (refFree t = true ∨ ∃ r, t = Ty.reference r) → refFree t' = true) := by
  induction fuel with
  | zero =>
    refine ⟨fun m t t' h => ?_, fun m ts ts' h => ?_, fun m t t' h _ => ?_⟩
    · exact Option.noConfusion h
    · exact Option.noConfusion h
    · exact Option.noConfusion h
  | succ fuel ih =>
    obtain ⟨ihM, ihL, ihF⟩ := ih
    refine ⟨fun m t t' h => ?_, fun m ts ts' h => ?_, fun m t t' h hside => ?_⟩
    · cases t with
      | elementary id => exact ihF m _ t' h (Or.inl rfl)
      | enum cs => exact ihF m _ t' h (Or.inl rfl)
      | contractAddress s => exact ihF m _ t' h (Or.inl rfl)
      | interfaceAddress s => exact ihF m _ t' h (Or.inl rfl)
      | libraryAddress s => exact ihF m _ t' h (Or.inl rfl)
      | reference r => exact ihF m _ t' h (Or.inr ⟨r, rfl⟩)
      | tuple ts =>
        simp only [mapResolve] at h
        cases hls : mapResolveList fuel m ts with
        | none => rw [hls] at h; exact Option.noConfusion h
        | some ts' =>
          rw [hls] at h
          obtain rfl := Option.some.inj h
          exact ihL m ts ts' hls
      | structT keys ts =>
        simp only [mapResolve] at h
        cases hls : mapResolveList fuel m ts with
        | none => rw [hls] at h; exact Option.noConfusion h
        | some ts' =>
          rw [hls] at h
          obtain rfl := Option.some.inj h
          exact ihL m ts ts' hls
      | array l ty =>
        simp only [mapResolve] at h
        cases hty : mapResolve fuel m ty with
        | none => rw [hty] at h; exact Option.noConfusion h
        | some ty' =>
          rw [hty] at h
          obtain rfl := Option.some.inj h
          exact ihM m ty ty' hty
      | named nm ty =>
        simp only [mapResolve] at h
        cases hty : mapResolve fuel m ty with
        | none => rw [hty] at h; exact Option.noConfusion h
        | some ty' =>
          rw [hty] at h
          obtain rfl := Option.some.inj h
          exact ihM m ty ty' hty
      | mapping k v =>
        simp only [mapResolve] at h
        cases hk : mapResolve fuel m k with
        | none => rw [hk] at h; exact Option.noConfusion h
        | some k' =>
          cases hv : mapResolve fuel m v with
          | none => rw [hk, hv] at h; exact Option.noConfusion h
          | some v' =>
            rw [hk, hv] at h
            obtain rfl := Option.some.inj h
            have h1 := ihM m k k' hk
            have h2 := ihM m v v' hv
            simp [refFree, h1, h2]
      | event nm args =>
        simp only [mapResolve] at h
        cases hls : mapResolveList fuel m args with
        | none => rw [hls] at h; exact Option.noConfusion h
        | some args' =>
          rw [hls] at h
          obtain rfl := Option.some.inj h
          exact ihL m args args' hls
    · cases ts with
      | nil =>
        simp only [mapResolveList] at h
        obtain rfl := Option.some.inj h
        rfl
      | cons t rest =>
        simp only [mapResolveList] at h
        cases ht : mapResolve fuel m t with
        | none => rw [ht] at h; exact Option.noConfusion h
        | some t1 =>
          cases hrest : mapResolveList fuel m rest with
          | none => rw [ht, hrest] at h; exact Option.noConfusion h
          | some rest1 =>
            rw [ht, hrest] at h
            obtain rfl := Option.some.inj h
            have h1 := ihM m t t1 ht
            have h2 := ihL m rest rest1 hrest
            simp [refFreeList, h1, h2]
    · cases t with
      | reference r =>
        simp only [resolveF] at h
        cases hd : derefTM (fuel + 1) m r with
        | none => rw [hd] at h; exact Option.noConfusion h
        | some td =>
          rw [hd] at h
          exact ihM m td t' h
      | elementary id =>
        simp only [resolveF] at h
        obtain rfl := Option.some.inj h
        rcases hside with hrf | ⟨r, hr⟩
        · exact hrf
        · exact Ty.noConfusion hr
      | enum cs =>
        simp only [resolveF] at h
        obtain rfl := Option.some.inj h
        rcases hside with hrf | ⟨r, hr⟩
        · exact hrf
        · exact Ty.noConfusion hr
      | contractAddress s =>
        simp only [resolveF] at h
        obtain rfl := Option.some.inj h
        rcases hside with hrf | ⟨r, hr⟩
        · exact hrf
        · exact Ty.noConfusion hr
      | interfaceAddress s =>
        simp only [resolveF] at h
        obtain rfl := Option.some.inj h
        rcases hside with hrf | ⟨r, hr⟩
        · exact hrf
        · exact Ty.noConfusion hr
      | libraryAddress s =>
        simp only [resolveF] at h
        obtain rfl := Option.some.inj h
        rcases hside with hrf | ⟨r, hr⟩
        · exact hrf
        · exact Ty.noConfusion hr
      | tuple ts =>
        simp only [resolveF] at h
        obtain rfl := Option.some.inj h
        rcases hside with hrf | ⟨r, hr⟩
        · exact hrf
        · exact Ty.noConfusion hr
      | structT keys ts =>
        simp only [resolveF] at h
        obtain rfl := Option.some.inj h
        rcases hside with hrf | ⟨r, hr⟩
        · exact hrf
        · exact Ty.noConfusion hr
      | array l ty =>
        simp only [resolveF] at h
        obtain rfl := Option.some.inj h
        rcases hside with hrf | ⟨r, hr⟩
        · exact hrf
        · exact Ty.noConfusion hr
      | named nm ty =>
        simp only [resolveF] at h
        obtain rfl := Option.some.inj h
        rcases hside with hrf | ⟨r, hr⟩
        · exact hrf
        · exact Ty.noConfusion hr
      | mapping k v =>
        simp only [resolveF] at h
        obtain rfl := Option.some.inj h
        rcases hside with hrf | ⟨r, hr⟩
        · exact hrf
        · exact Ty.noConfusion hr
      | event nm args =>
        simp only [resolveF] at h
        obtain rfl := Option.some.inj h
        rcases hside with hrf | ⟨r, hr⟩
        · exact hrf
        · exact Ty.noConfusion hr

theorem lookupTM_cons (e : Nat × Ty) (rest : TypeMap) (k : Nat) :
    lookupTM (e :: rest) k = if e.1 = k then some e.2 else lookupTM rest k := by
  by_cases he : e.1 = k
  · rw [if_pos he]
    unfold lookupTM
    rw [List.find?_cons_of_pos _ (by simp [he])]
    rfl
  · rw [if_neg he]
    unfold lookupTM
    rw [List.find?_cons_of_neg _ (by simp [he])]

theorem lookupTM_update_self (m : TypeMap) (k : Nat) (v0 v : Ty)
    (h : lookupTM m k = some v0) : lookupTM (updateTM m k v) k = some v := by
  induction m with
  | nil => exact Option.noConfusion h
  | cons e rest ih =>
    rw [lookupTM_cons] at h
    by_cases he : e.1 = k
    · simp only [updateTM, if_pos he]
      rw [lookupTM_cons, if_pos rfl]
    · simp only [updateTM, if_neg he]
      rw [lookupTM_cons, if_neg he]
      rw [if_neg he] at h
      exact ih h

theorem lookupTM_update_other (m : TypeMap) (k0 k : Nat) (v : Ty) (hk : k ≠ k0) :
    lookupTM (updateTM m k0 v) k = lookupTM m k := by
  induction m with
  | nil => rfl
  | cons e rest ih =>
    by_cases he : e.1 = k0
    · simp only [updateTM, if_pos he]
      rw [lookupTM_cons, lookupTM_cons]
      rw [if_neg (show ¬ ((k0, v).1 = k) from fun h2 => hk h2.symm)]
      rw [if_neg (show ¬ (e.1 = k) from by rw [he]; exact fun h2 => hk h2.symm)]
    · simp only [updateTM, if_neg he]
      rw [lookupTM_cons, lookupTM_cons]
      by_cases hek : e.1 = k
      · rw [if_pos hek, if_pos hek]
      · rw [if_neg hek, if_neg hek]
        exact ih

theorem lookupTM_mem_keys (m : TypeMap) (k : Nat) (v : Ty)
    (h : lookupTM m k = some v) : k ∈ m.map Prod.fst := by
  induction m with
  | nil => exact Option.noConfusion h
  | cons e rest ih =>
    rw [lookupTM_cons] at h
    by_cases he : e.1 = k
    · simp [he]
    · rw [if_neg he] at h
      simp [ih h]

theorem resolvePass_lookup (fuel : Nat) (ks : List Nat) :
    ∀ m m', resolvePass fuel ks m = some m' →
      ∀ k v, lookupTM m' k = some v →
        (lookupTM m k = some v ∧ k ∉ ks) ∨ refFree v = true := by
  induction ks with
  | nil =>
    intro m m' h k v hv
    simp only [resolvePass] at h
    obtain rfl := Option.some.inj h
    exact Or.inl ⟨hv, by simp⟩
  | cons k0 ks ih =>
    intro m m' h k v hv
    simp only [resolvePass] at h
    cases hl : lookupTM m k0 with
    | none =>
      rw [hl] at h
      rcases ih m m' h k v hv with ⟨hlk, hnot⟩ | hrf
      · refine Or.inl ⟨hlk, ?_⟩
        intro hmem
        rcases List.mem_cons.mp hmem with rfl | hmem2
        · rw [hl] at hlk; exact Option.noConfusion hlk
        · exact hnot hmem2
      · exact Or.inr hrf
    | some v0 =>
      simp only [hl] at h
      cases hr : mapResolve fuel m v0 with
      | none =>
        simp only [hr] at h
        exact Option.noConfusion h
      | some v0' =>
        simp only [hr] at h
        have hv0' : refFree v0' = true := (resolve_refFree fuel).1 m v0 v0' hr
        rcases ih _ m' h k v hv with ⟨hlk, hnot⟩ | hrf
        · by_cases hk : k = k0
          · subst hk
            rw [lookupTM_update_self m k v0 v0' hl] at hlk
            obtain rfl := Option.some.inj hlk
            exact Or.inr hv0'
          · rw [lookupTM_update_other m k0 k v0' hk] at hlk
            refine Or.inl ⟨hlk, ?_⟩
            intro hmem
            rcases List.mem_cons.mp hmem with rfl | hmem2
            · exact hk rfl
            · exact hnot hmem2
        · exact Or.inr hrf

theorem resolvePassFull_refFree (fuel : Nat) (m m' : TypeMap)
    (h : resolvePassFull fuel m = some m') :
    ∀ k v, lookupTM m' k = some v → refFree v = true := by
  intro k v hv
  rcases resolvePass_lookup fuel (m.map Prod.fst) m m' h k v hv with ⟨hlk, hnot⟩ | hrf
  · exact absurd (lookupTM_mem_keys m k v hlk) hnot
  · exact hrf

theorem updateTM_keys (m : TypeMap) (k : Nat) (v : Ty) :
    (updateTM m k v).map Prod.fst = m.map Prod.fst := by
  induction m with
  | nil => rfl
  | cons e rest ih =>
    by_cases he : e.1 = k
    · simp [updateTM, he]
    · simp [updateTM, he, ih]

theorem resolvePass_keys (fuel : Nat) (ks : List Nat) :
    ∀ m m', resolvePass fuel ks m = some m' → m'.map Prod.fst = m.map Prod.fst := by
  induction ks with
  | nil =>
    intro m m' h
    simp only [resolvePass] at h
    obtain rfl := Option.some.inj h
    rfl
  | cons k0 ks ih =>
    intro m m' h
    simp only [resolvePass] at h
    cases hl : lookupTM m k0 with
    | none => rw [hl] at h; exact ih m m' h
    | some v0 =>
      simp only [hl] at h
      cases hr : mapResolve fuel m v0 with
      | none =>
        simp only [hr] at h
        exact Option.noConfusion h
      | some v0' =>
        simp only [hr] at h
        rw [ih _ m' h, updateTM_keys]

theorem entries_lookupTM (m : TypeMap) (hnd : (m.map Prod.fst).Nodup) :
    ∀ e ∈ m, lookupTM m e.1 = some e.2 := by
  induction m with
  | nil => intro e he; cases he
  | cons a rest ih =>
    intro e he
    rcases List.mem_cons.mp he with rfl | hmem
    · rw [lookupTM_cons, if_pos rfl]
    · have hne : ¬ (a.1 = e.1) := by
        intro hcontra
        have h1 : a.1 ∈ rest.map Prod.fst := by
          rw [hcontra]
          exact List.mem_map_of_mem Prod.fst hmem
        exact (List.nodup_cons.mp hnd).1 h1
      rw [lookupTM_cons, if_neg hne]
      exact ih (List.nodup_cons.mp hnd).2 e hmem

theorem derefTM_refFree (fuel : Nat) (m : TypeMap)
    (hm : ∀ k v, lookupTM m k = some v → refFree v = true) :
    ∀ (r : Nat) (t : Ty), derefTM fuel m r = some t → refFree t = true := by
  induction fuel with
  | zero =>
    intro r t h
    exact Option.noConfusion h
  | succ fuel ih =>
    intro r t h
    simp only [derefTM] at h
    cases hl : lookupTM m r with
    | none =>
      simp only [hl] at h
      exact Option.noConfusion h
    | some t0 =>
      simp only [hl] at h
      cases t0 with
      | reference r2 => exact ih r2 t h
      | elementary id =>
        obtain rfl := Option.some.inj h
        exact hm r _ hl
      | tuple ts =>
        obtain rfl := Option.some.inj h
        exact hm r _ hl
      | structT keys ts =>
        obtain rfl := Option.some.inj h
        exact hm r _ hl
      | array l ty =>
        obtain rfl := Option.some.inj h
        exact hm r _ hl
      | enum cs =>
        obtain rfl := Option.some.inj h
        exact hm r _ hl
      | named nm ty =>
        obtain rfl := Option.some.inj h
        exact hm r _ hl
      | contractAddress s2 =>
        obtain rfl := Option.some.inj h
        exact hm r _ hl
      | interfaceAddress s2 =>
        obtain rfl := Option.some.inj h
        exact hm r _ hl
      | libraryAddress s2 =>
        obtain rfl := Option.some.inj h
        exact hm r _ hl
      | mapping kt vt =>
        obtain rfl := Option.some.inj h
        exact hm r _ hl
      | event nm args =>
        obtain rfl := Option.some.inj h
        exact hm r _ hl

theorem variableAccessor_refFree (t : Ty) (prev : List Ty)
    (hprev : ∀ x ∈ prev, refFree x = true) (ht : refFree t = true) :
    (∀ x ∈ (variableAccessor t prev).1, refFree x = true) ∧
    refFree (variableAccessor t prev).2 = true :=
  match t with
  | .mapping k v => by
    have hk : refFree k = true := by
      simp only [refFree, Bool.and_eq_true] at ht
      exact ht.1
    have hv : refFree v = true := by
      simp only [refFree, Bool.and_eq_true] at ht
      exact ht.2
    have hprev2 : ∀ x ∈ prev ++ [k], refFree x = true := by
      intro x hx
      rcases List.mem_append.mp hx with hx1 | hx2
      · exact hprev x hx1
      · rw [List.mem_singleton.mp hx2]
        exact hk
    exact variableAccessor_refFree v (prev ++ [k]) hprev2 hv
  | .array l ty => by
    have hprev2 : ∀ x ∈ prev ++ [Ty.elementary (ascii "uint256")], refFree x = true := by
      intro x hx
      rcases List.mem_append.mp hx with hx1 | hx2
      · exact hprev x hx1
      · rw [List.mem_singleton.mp hx2]
        rfl
    exact variableAccessor_refFree ty (prev ++ [Ty.elementary (ascii "uint256")]) hprev2 ht
  | .elementary id => ⟨hprev, ht⟩
  | .tuple ts => ⟨hprev, ht⟩
  | .structT keys ts => ⟨hprev, ht⟩
  | .enum cs => ⟨hprev, ht⟩
  | .named nm ty => ⟨hprev, ht⟩
  | .contractAddress s => ⟨hprev, ht⟩
  | .interfaceAddress s => ⟨hprev, ht⟩
  | .libraryAddress s => ⟨hprev, ht⟩
  | .event nm args => ⟨hprev, ht⟩
  | .reference r => ⟨hprev, ht⟩

theorem derefList_refFree (fuel : Nat) (m : TypeMap)
    (hm : ∀ k v, lookupTM m k = some v → refFree v = true) :
    ∀ (ids : List Nat) (ts : List Ty), derefList fuel m ids = some ts →
      ∀ x ∈ ts, refFree x = true := by
  intro ids
  induction ids with
  | nil =>
    intro ts h x hx
    simp only [derefList] at h
    obtain rfl := Option.some.inj h
    cases hx
  | cons r rest ih =>
    intro ts h x hx
    simp only [derefList] at h
    cases hd : derefTM fuel m r with
    | none => simp only [hd] at h; exact Option.noConfusion h
    | some t =>
      cases hrest : derefList fuel m rest with
      | none => simp only [hd, hrest] at h; exact Option.noConfusion h
      | some ts2 =>
        simp only [hd, hrest] at h
        obtain rfl := Option.some.inj h
        rcases List.mem_cons.mp hx with rfl | hx2
        · exact derefTM_refFree fuel m hm r x hd
        · exact ih ts2 hrest x hx2

theorem variableAPI_refFree (fuel : Nat) (m : TypeMap)
    (hm : ∀ k v, lookupTM m k = some v → refFree v = true)
    (v : VarDecl) (fn : FunctionT) (h : variableAPI fuel m v = some fn) :
    (∀ x ∈ fn.inputs, refFree x = true) ∧ (∀ x ∈ fn.outputs, refFree x = true) := by
  unfold variableAPI at h
  cases hd : derefTM fuel m v.typeId with
  | none => rw [hd] at h; exact Option.noConfusion h
  | some typ =>
    rw [hd] at h
    obtain rfl := Option.some.inj h
    have htyp : refFree typ = true := derefTM_refFree fuel m hm v.typeId typ hd
    have hacc := variableAccessor_refFree typ [] (by intro x hx; cases hx) htyp
    refine ⟨hacc.1, ?_⟩
    intro x hx
    rcases List.mem_singleton.mp hx with rfl
    exact hacc.2

theorem functionAPI_refFree (fuel : Nat) (m : TypeMap)
    (hm : ∀ k v, lookupTM m k = some v → refFree v = true)
    (f : FuncDef) (fn : FunctionT) (h : functionAPI fuel m f = some fn) :
    (∀ x ∈ fn.inputs, refFree x = true) ∧ (∀ x ∈ fn.outputs, refFree x = true) := by
  unfold functionAPI at h
  cases hin : derefList fuel m f.inputIds with
  | none => simp only [hin] at h; exact Option.noConfusion h
  | some inputs =>
    simp only [hin] at h
    cases hout : derefList fuel m f.outputIds with
    | none =>
      simp only [hout] at h
      exact Option.noConfusion h
    | some outputs =>
      simp only [hout] at h
      by_cases hany : inputs.any isRefRoot = true
      · rw [if_pos hany] at h
        exact Option.noConfusion h
      · rw [if_neg hany] at h
        obtain rfl := Option.some.inj h
        exact ⟨derefList_refFree fuel m hm _ _ hin, derefList_refFree fuel m hm _ _ hout⟩

theorem contractAPI_refFree (fuel : Nat) (m : TypeMap)
    (hm : ∀ k v, lookupTM m k = some v → refFree v = true) :
    ∀ (children : List Child) (fns : List FunctionT),
      contractAPI fuel m children = some fns →
      ∀ fn ∈ fns, (∀ x ∈ fn.inputs, refFree x = true) ∧
        (∀ x ∈ fn.outputs, refFree x = true) := by
  intro children
  induction children with
  | nil =>
    intro fns h fn hfn
    simp only [contractAPI] at h
    obtain rfl := Option.some.inj h
    cases hfn
  | cons c rest ih =>
    intro fns h fn hfn
    cases c with
    | varDecl v =>
      simp only [contractAPI] at h
      cases hv : variableAPI fuel m v with
      | none => simp only [hv, Option.bind] at h; exact Option.noConfusion h
      | some fn0 =>
        cases hrest : contractAPI fuel m rest with
        | none => simp only [hv, hrest, Option.bind] at h; exact Option.noConfusion h
        | some fns0 =>
          simp only [hv, hrest, Option.bind] at h
          obtain rfl := Option.some.inj h
          rcases List.mem_cons.mp hfn with rfl | hfn2
          · exact variableAPI_refFree fuel m hm v fn hv
          · exact ih fns0 hrest fn hfn2
    | funcDef f =>
      simp only [contractAPI] at h
      by_cases hctor : f.isConstructor
      · simp only [hctor, if_true] at h
        exact ih fns h fn hfn
      · simp only [hctor, if_false] at h
        cases hf : functionAPI fuel m f with
        | none => simp only [hf, Option.bind] at h; exact Option.noConfusion h
        | some fn0 =>
          cases hrest : contractAPI fuel m rest with
          | none => simp only [hf, hrest, Option.bind] at h; exact Option.noConfusion h
          | some fns0 =>
            simp only [hf, hrest, Option.bind] at h
            obtain rfl := Option.some.inj h
            rcases List.mem_cons.mp hfn with rfl | hfn2
            · exact functionAPI_refFree fuel m hm f fn hf
            · exact ih fns0 hrest fn hfn2
    | other =>
      simp only [contractAPI] at h
      exact ih fns h fn hfn

/-- C8: after the resolve pass of `Project` succeeds (enough fuel; Go has no
fuel and diverges on cyclic reference chains, which the AST does not
produce), no `Reference` survives anywhere: every entry of the resolved type
map is Reference-free at every depth, hence so is every Named type
registered in a Contract's Types map, and so are all Inputs and Outputs of
every Function that `ContractAPI` extracts over the resolved map. The
hypothesis that the map's keys are distinct is the Go `map` key-uniqueness
invariant. -/
theorem C8_no_reference_escapes (fuelR fuelA : Nat) (m m' : TypeMap)
    (children : List Child) (fns : List FunctionT) (pfx : List Nat)
    (hnd : (m.map Prod.fst).Nodup)
    (hpass : resolvePassFull fuelR m = some m')
    (hapi : contractAPI fuelA m' children = some fns) :
    (∀ e ∈ m', refFree e.2 = true) ∧
    (∀ u ∈ contractTypes m' pfx, refFree u = true) ∧
    (∀ fn ∈ fns, (∀ x ∈ fn.inputs, refFree x = true) ∧
      (∀ x ∈ fn.outputs, refFree x = true)) := by
  have hm' : ∀ k v, lookupTM m' k = some v → refFree v = true :=
    resolvePassFull_refFree fuelR m m' hpass
  have hkeys : m'.map Prod.fst = m.map Prod.fst :=
    resolvePass_keys fuelR (m.map Prod.fst) m m' hpass
  have hnd' : (m'.map Prod.fst).Nodup := by rw [hkeys]; exact hnd
  have hentries : ∀ e ∈ m', refFree e.2 = true := by
    intro e he
    exact hm' e.1 e.2 (entries_lookupTM m' hnd' e he)
  refine ⟨hentries, ?_, contractAPI_refFree fuelA m' hm' children fns hapi⟩
  intro u hu
  obtain ⟨e, he, hsome⟩ := List.mem_filterMap.mp hu
  cases hv : e.2 with
  | named nm ty =>
    rw [hv] at hsome
    by_cases hp : hasPfx pfx nm
    · simp only [hp, if_true] at hsome
      obtain rfl := Option.some.inj hsome
      rw [← hv]
      exact hentries e he
    · simp only [hp, if_false] at hsome
      exact Option.noConfusion hsome
  | elementary id => rw [hv] at hsome; exact Option.noConfusion hsome
  | tuple ts => rw [hv] at hsome; exact Option.noConfusion hsome
  | structT keys ts => rw [hv] at hsome; exact Option.noConfusion hsome
  | array l ty => rw [hv] at hsome; exact Option.noConfusion hsome
  | enum cs => rw [hv] at hsome; exact Option.noConfusion hsome
  | contractAddress s2 => rw [hv] at hsome; exact Option.noConfusion hsome
  | interfaceAddress s2 => rw [hv] at hsome; exact Option.noConfusion hsome
  | libraryAddress s2 => rw [hv] at hsome; exact Option.noConfusion hsome
  | mapping kt vt => rw [hv] at hsome; exact Option.noConfusion hsome
  | event nm args => rw [hv] at hsome; exact Option.noConfusion hsome
  | reference r => rw [hv] at hsome; exact Option.noConfusion hsome

/-- Witness for `C8_no_reference_escapes`: a two-entry map with a forward
reference, a contract with one public variable getter and one function, and
fuel 8. -/
theorem C8_no_reference_escapes_witness :
    (∀ e ∈ ([(1, Ty.elementary (ascii "uint256")),
        (2, Ty.elementary (ascii "uint256"))] : TypeMap), refFree e.2 = true) ∧
    (∀ u ∈ contractTypes [(1, Ty.elementary (ascii "uint256")),
        (2, Ty.elementary (ascii "uint256"))] (ascii "f.sol:C"), refFree u = true) ∧
    (∀ fn ∈ [(⟨ascii "x", Visibility.publicV, [],
        [Ty.elementary (ascii "uint256")]⟩ : FunctionT)],
      (∀ x ∈ fn.inputs, refFree x = true) ∧ (∀ x ∈ fn.outputs, refFree x = true)) :=
  C8_no_reference_escapes 8 8
    [(1, Ty.reference 2), (2, Ty.elementary (ascii "uint256"))]
    [(1, Ty.elementary (ascii "uint256")), (2, Ty.elementary (ascii "uint256"))]
    [Child.varDecl ⟨ascii "x", Visibility.publicV, 1⟩]
    [⟨ascii "x", Visibility.publicV, [], [Ty.elementary (ascii "uint256")]⟩]
    (ascii "f.sol:C") (by decide) rfl rfl

end KarmaLink
